import Mathlib

/-!
Verification development for the experience-analyzer repository.

Python `datetime.date` values are embedded as their proleptic Gregorian
ordinals (`date.toordinal`), so date comparison is integer comparison and
`(a - b).days` is integer subtraction.  Optional values are `Option`,
Python floats appearing in scores are embedded as rationals, and the one
code path that can raise (`_parse_spanish_date` constructing an invalid
calendar date) is embedded in `Except Unit`.
-/

namespace ExperienceAnalyzer

/-! ### Calendar dates (`datetime.date` as proleptic Gregorian ordinal) -/

def isLeapYear (y : Nat) : Bool :=
  y % 4 == 0 && (y % 100 != 0 || y % 400 == 0)

def daysInMonth (y m : Nat) : Nat :=
  if m = 2 then (if isLeapYear y then 29 else 28)
  else if m = 4 ∨ m = 6 ∨ m = 9 ∨ m = 11 then 30
  else 31

def daysBeforeMonth (y m : Nat) : Nat :=
  (List.range m).foldl (fun acc k => if 1 ≤ k then acc + daysInMonth y k else acc) 0

/-- `date(y, m, d).toordinal()` for a valid Gregorian date. -/
def ymdToOrdinal (y m d : Nat) : Int :=
  (365 * (y - 1) + (y - 1) / 4 + (y - 1) / 400 + daysBeforeMonth y m + d : Nat)
    - ((y - 1) / 100 : Nat)

/-- `datetime.date(y, m, d)`: `some` ordinal when the triple is a valid
calendar date, `none` when construction would raise `ValueError`. -/
def mkDate (y m d : Nat) : Option Int :=
  if 1 ≤ y ∧ y ≤ 9999 ∧ 1 ≤ m ∧ m ≤ 12 ∧ 1 ≤ d ∧ d ≤ daysInMonth y m then
    some (ymdToOrdinal y m d)
  else
    none

/-- `date.min.toordinal()` (= ordinal of 0001-01-01). -/
def dateMinOrd : Int := 1

/-! ### models.py -/

/-- `_compute_effective_end` from models.py. -/
def computeEffectiveEnd (start_date end_date issue_date : Option Int) : Option Int :=
  match start_date with
  | none => none
  | some _ =>
    match ([end_date, issue_date].filterMap id) with
    | [] => none
    | c :: cs => some (cs.foldl min c)

/-- `_compute_days` from models.py. -/
def computeDays (start : Option Int) (endd : Option Int) : Option Int :=
  match start, endd with
  | some s, some e => if e < s then some 0 else some (e - s + 1)
  | _, _ => none

structure ExperienceRecord where
  source : String
  employer : Option String
  start_date : Option Int
  end_date : Option Int
  issue_date : Option Int
  effective_end_date : Option Int
  experience_days : Option Int
  deriving Repr, DecidableEq

/-- `ExperienceRecord.__post_init__`: recompute the derived fields from the
three raw dates. -/
def postInit (r : ExperienceRecord) : ExperienceRecord :=
  let eff := computeEffectiveEnd r.start_date r.end_date r.issue_date
  { r with effective_end_date := eff, experience_days := computeDays r.start_date eff }

/-- `ExperienceRecord(source, employer, start_date, end_date, issue_date)`:
dataclass construction runs `__post_init__`. -/
def mkExperienceRecord (source : String) (employer : Option String)
    (start_date end_date issue_date : Option Int) : ExperienceRecord :=
  postInit
    { source := source, employer := employer, start_date := start_date,
      end_date := end_date, issue_date := issue_date,
      effective_end_date := none, experience_days := none }

structure ComparisonResult where
  certificate : ExperienceRecord
  cv_entry : Option ExperienceRecord
  start_date_match : Bool
  details : String
  deriving Repr, DecidableEq

/-! ### Characters and strings (the Python string operations used) -/

/-- `str.lower` restricted to the character repertoire this system
processes (ASCII plus the Spanish accented letters). -/
def pyLower (c : Char) : Char :=
  if 'A' ≤ c ∧ c ≤ 'Z' then Char.ofNat (c.toNat + 32)
  else if c = 'Á' then 'á' else if c = 'É' then 'é'
  else if c = 'Í' then 'í' else if c = 'Ó' then 'ó'
  else if c = 'Ú' then 'ú' else if c = 'Ñ' then 'ñ'
  else if c = 'Ü' then 'ü'
  else c

def pyIsSpace (c : Char) : Bool :=
  c = ' ' ∨ c = '\t' ∨ c = '\n' ∨ c = '\x0d' ∨ c = '\x0b' ∨ c = '\x0c'

def pyIsDigit (c : Char) : Bool := '0' ≤ c ∧ c ≤ '9'

def pyIsAsciiAlpha (c : Char) : Bool :=
  ('a' ≤ c ∧ c ≤ 'z') ∨ ('A' ≤ c ∧ c ≤ 'Z')

/-- `str.isalnum` on the repertoire in scope. -/
def pyIsAlnum (c : Char) : Bool :=
  pyIsAsciiAlpha c ∨ pyIsDigit c ∨
    c ∈ ['á', 'é', 'í', 'ó', 'ú', 'ñ', 'ü', 'Á', 'É', 'Í', 'Ó', 'Ú', 'Ñ', 'Ü']

/-- `str.strip()` (default whitespace) on a character list. -/
def pyStrip (cs : List Char) : List Char :=
  ((cs.dropWhile pyIsSpace).reverse.dropWhile pyIsSpace).reverse

/-- `str.strip(chars)` with an explicit character set. -/
def pyStripChars (junk : List Char) (cs : List Char) : List Char :=
  ((cs.dropWhile (· ∈ junk)).reverse.dropWhile (· ∈ junk)).reverse

def pyLowerStr (cs : List Char) : List Char := cs.map pyLower

/-- Python `needle in haystack` substring test. -/
def containsSub (needle hay : List Char) : Bool :=
  hay.tails.any (fun t => needle.isPrefixOf t)

/-! ### comparer.py: name normalization and similarity -/

/-- `_normalize_name` from comparer.py. -/
def normalizeName (name : Option String) : List Char :=
  match name with
  | none => []
  | some s =>
    if s.toList = [] then []
    else
      let cleaned := pyLowerStr s.toList
      let repl : Char → Char := fun c =>
        if c = 'á' then 'a' else if c = 'é' then 'e' else if c = 'í' then 'i'
        else if c = 'ó' then 'o' else if c = 'ú' then 'u' else if c = 'ñ' then 'n'
        else c
      pyStrip ((cleaned.map repl).filter (fun c => pyIsAlnum c || pyIsSpace c))

/-- `difflib.SequenceMatcher.find_longest_match` (no junk, no autojunk for
the short strings in scope): returns `(besti, bestj, bestsize)`. -/
def findLongestMatch (a b : List Char) (alo ahi blo bhi : Nat) :
    Nat × Nat × Nat :=
  let step :
      (List (Nat × Nat) × (Nat × Nat × Nat)) → Nat →
        (List (Nat × Nat) × (Nat × Nat × Nat)) := fun st i =>
    let j2len := st.1
    let js := (List.range b.length).filter
      (fun j => b.getD j ' ' == a.getD i ' ' && blo ≤ j && j < bhi)
    js.foldl
      (fun st2 j =>
        let prev := if j = 0 then 0 else ((j2len.lookup (j - 1)).getD 0)
        let k := prev + 1
        let newj2len := (j, k) :: st2.1
        let best := st2.2
        if k > best.2.2 then (newj2len, (i + 1 - k, j + 1 - k, k))
        else (newj2len, best))
      (([] : List (Nat × Nat)), st.2)
  let init : List (Nat × Nat) × (Nat × Nat × Nat) := ([], (alo, blo, 0))
  (((List.range ahi).filter (fun i => alo ≤ i)).foldl step init).2

/-- Total size of the matching blocks found by
`SequenceMatcher.get_matching_blocks` (the quantity `M` in `ratio`). -/
def matchingSize (a b : List Char) :
    Nat → Nat → Nat → Nat → Nat → Nat
  | 0, _, _, _, _ => 0
  | fuel + 1, alo, ahi, blo, bhi =>
    let m := findLongestMatch a b alo ahi blo bhi
    let i := m.1
    let j := m.2.1
    let k := m.2.2
    if k = 0 then 0
    else
      k +
        (if alo < i ∧ blo < j then matchingSize a b fuel alo i blo j else 0) +
        (if i + k < ahi ∧ j + k < bhi then
          matchingSize a b fuel (i + k) ahi (j + k) bhi
        else 0)

/-- `SequenceMatcher(None, a, b).ratio()` as a rational. -/
def smRatio (a b : List Char) : ℚ :=
  let t := a.length + b.length
  if t = 0 then 0
  else (2 * (matchingSize a b (t + 1) 0 a.length 0 b.length) : ℚ) / (t : ℚ)

/-- `_employer_similarity` from comparer.py. -/
def employerSimilarity (a b : Option String) : ℚ :=
  let an := normalizeName a
  let bn := normalizeName b
  if an = [] ∨ bn = [] then 0 else smRatio an bn

/-- `_date_difference` from comparer.py. -/
def dateDifference (a b : Option Int) : Option Int :=
  match a, b with
  | some x, some y => some |x - y|
  | _, _ => none

structure MatchScore where
  certificate : ExperienceRecord
  cv_entry : ExperienceRecord
  score : ℚ
  start_date_match : Bool
  deriving Repr, DecidableEq

/-- `_score_pair` from comparer.py; `(start_diff or 60)` is Python truthiness:
`60` when the difference is `None` or `0`. -/
def scorePair (certificate cv_entry : ExperienceRecord) : MatchScore :=
  let similarity := employerSimilarity certificate.employer cv_entry.employer
  let start_diff := dateDifference certificate.start_date cv_entry.start_date
  let start_match := match start_diff with
    | some d => decide (d ≤ 7)
    | none => false
  let orSixty : ℚ := match start_diff with
    | some d => if d = 0 then 60 else (d : ℚ)
    | none => 60
  let date_score : ℚ := if start_match then 1 else 1 / (1 + orSixty / 30)
  { certificate := certificate, cv_entry := cv_entry,
    score := (7 / 10 : ℚ) * similarity + (3 / 10 : ℚ) * date_score,
    start_date_match := start_match }

/-! ### comparer.py: compare_certificates_with_cv -/

/-- The inner argmax loop of `compare_certificates_with_cv`: best score and
its index (`best_idx`), keeping the earliest on ties (strict `>` update). -/
def bestCvMatch (certificate : ExperienceRecord) (cv_list : List ExperienceRecord) :
    Option (MatchScore × Nat) :=
  (cv_list.enum).foldl
    (fun best p =>
      let score := scorePair certificate p.2
      match best with
      | none => some (score, p.1)
      | some b => if score.score > b.1.score then some (score, p.1) else some b)
    none

/-- One iteration of the certificate loop: appends one `ComparisonResult`
and possibly marks a cv index as used. -/
def compareStep (cv_list : List ExperienceRecord)
    (st : List ComparisonResult × List Nat) (certificate : ExperienceRecord) :
    List ComparisonResult × List Nat :=
  match bestCvMatch certificate cv_list with
  | some (best, best_idx) =>
    if best.score > 3 / 10 then
      (st.1 ++ [{ certificate := certificate,
                  cv_entry := cv_list.get? best_idx,
                  start_date_match := best.start_date_match,
                  details := if best.start_date_match then
                      "Coincidencia por empleador y fecha"
                    else "Coincidencia parcial" }],
       if best_idx ∈ st.2 then st.2 else st.2 ++ [best_idx])
    else
      (st.1 ++ [{ certificate := certificate, cv_entry := none,
                  start_date_match := false,
                  details := "No se encontró coincidencia en la hoja de vida" }],
       st.2)
  | none =>
    (st.1 ++ [{ certificate := certificate, cv_entry := none,
                start_date_match := false,
                details := "No se encontró coincidencia en la hoja de vida" }],
     st.2)

/-- Results and used-index set after the main certificate loop. -/
def compareMain (certificates cv_list : List ExperienceRecord) :
    List ComparisonResult × List Nat :=
  certificates.foldl (compareStep cv_list) ([], [])

/-- The synthetic résumé-only row built for an unconsumed cv entry
(`issue_date` is not passed, so it defaults to `None`). -/
def syntheticRow (cv_entry : ExperienceRecord) : ComparisonResult :=
  { certificate := mkExperienceRecord "Hoja de vida" cv_entry.employer
      cv_entry.start_date cv_entry.end_date none,
    cv_entry := some cv_entry,
    start_date_match := true,
    details := "Registro presente solo en la hoja de vida" }

/-- `compare_certificates_with_cv` from comparer.py. -/
def compareCertificatesWithCv (certificates cv_entries : List ExperienceRecord) :
    List ComparisonResult :=
  let main := compareMain certificates cv_entries
  main.1 ++
    (cv_entries.enum.filterMap
      (fun p => if p.1 ∈ main.2 then none else some (syntheticRow p.2)))

/-! ### text_parser.py: the date pattern (`DATE_PATTERN`)

Each regex alternative is deterministic at a given position (greedy
quantifiers are always followed by a character class disjoint from the
quantified class, so backtracking can never produce a different result),
and the alternatives are tried in source order, matching `re` semantics. -/

def munchDigits (cs : List Char) : Nat := (cs.takeWhile pyIsDigit).length

/-- `\d{1,2}` directly followed by a character satisfying `p` (which no
digit satisfies); consumes both.  Returns the digit value and the rest. -/
def digits12Then (p : Char → Bool) (cs : List Char) : Option (Nat × List Char) :=
  let r := munchDigits cs
  if r = 1 ∨ r = 2 then
    match cs.drop r with
    | s :: rest =>
      if p s then some (((cs.take r).foldl (fun a c => 10 * a + (c.toNat - 48)) 0), rest)
      else none
    | [] => none
  else none

def chompChar (p : Char → Bool) (cs : List Char) : Option (List Char) :=
  match cs with
  | c :: rest => if p c then some rest else none
  | [] => none

def chompDigitsExact (n : Nat) (cs : List Char) : Option (Nat × List Char) :=
  let pre := cs.take n
  if pre.length = n ∧ pre.all pyIsDigit then
    some (pre.foldl (fun a c => 10 * a + (c.toNat - 48)) 0, cs.drop n)
  else none

/-- `\s+` -/
def chompSpaces1 (cs : List Char) : Option (List Char) :=
  let r := (cs.takeWhile pyIsSpace).length
  if r = 0 then none else some (cs.drop r)

/-- `\s*` -/
def chompSpaces0 (cs : List Char) : List Char := cs.dropWhile pyIsSpace

/-- Case-insensitive literal (given in lowercase). -/
def chompLitCI (lit : List Char) (cs : List Char) : Option (List Char) :=
  match lit, cs with
  | [], rest => some rest
  | _ :: _, [] => none
  | l :: ls, c :: rest => if pyLower c = l then chompLitCI ls rest else none

/-- One character of a class, case-insensitively (class in lowercase). -/
def chompClassCI (set : List Char) (cs : List Char) : Option (List Char) :=
  match cs with
  | c :: rest => if pyLower c ∈ set then some rest else none
  | [] => none

/-- `[a-zA-Záéíóúñ]` under `re.IGNORECASE`. -/
def isPatLetter (c : Char) : Bool :=
  pyIsAsciiAlpha c ∨ c ∈ ['á', 'é', 'í', 'ó', 'ú', 'ñ', 'Á', 'É', 'Í', 'Ó', 'Ú', 'Ñ']

/-- `[a-zA-Záéíóúñ]+` (maximal munch; always followed by `\s` in the
patterns, so greedy matching is deterministic). -/
def chompLetters1 (cs : List Char) : Option (List Char × List Char) :=
  let w := cs.takeWhile isPatLetter
  if w.length = 0 then none else some (w, cs.drop w.length)

/-- `(?:de\s+|d[ií]as\s+del\s+mes\s+de\s+)` -/
def chompSpanishConnector (cs : List Char) : Option (List Char) :=
  match (chompLitCI ['d', 'e'] cs).bind chompSpaces1 with
  | some rest => some rest
  | none =>
    (chompLitCI ['d'] cs).bind fun r1 =>
    (chompClassCI ['i', 'í'] r1).bind fun r2 =>
    (chompLitCI ['a', 's'] r2).bind fun r3 =>
    (chompSpaces1 r3).bind fun r4 =>
    (chompLitCI ['d', 'e', 'l'] r4).bind fun r5 =>
    (chompSpaces1 r5).bind fun r6 =>
    (chompLitCI ['m', 'e', 's'] r6).bind fun r7 =>
    (chompSpaces1 r7).bind fun r8 =>
    (chompLitCI ['d', 'e'] r8).bind fun r9 =>
    chompSpaces1 r9

/-- `\d{1,2}\s+(?:de\s+|d[ií]as\s+del\s+mes\s+de\s+)[a-zA-Záéíóúñ]+\s+de\s+\d{4}`
as a prefix parse returning `(day, monthWord, year, rest)`. -/
def spanishForm1 (cs : List Char) : Option (Nat × List Char × Nat × List Char) :=
  (digits12Then pyIsSpace cs).bind fun dr =>
  (chompSpanishConnector (chompSpaces0 dr.2)).bind fun r2 =>
  (chompLetters1 r2).bind fun wr =>
  (chompSpaces1 wr.2).bind fun r3 =>
  (chompLitCI ['d', 'e'] r3).bind fun r4 =>
  (chompSpaces1 r4).bind fun r5 =>
  (chompDigitsExact 4 r5).bind fun yr =>
  some (dr.1, wr.1, yr.1, yr.2)

/-- `[a-zA-Záéíóúñ]+\s+\d{1,2},\s*\d{4}` as a prefix parse returning
`(monthWord, day, year, rest)`. -/
def spanishForm2 (cs : List Char) : Option (List Char × Nat × Nat × List Char) :=
  (chompLetters1 cs).bind fun wr =>
  (chompSpaces1 wr.2).bind fun r1 =>
  (digits12Then (· = ',') r1).bind fun dr =>
  (chompDigitsExact 4 (chompSpaces0 dr.2)).bind fun yr =>
  some (wr.1, dr.1, yr.1, yr.2)

/-- First alternative: digits 1-2, a slash or dash, digits 1-2, a slash
or dash, digits 2-4.  Returns the length matched. -/
def matchAlt1 (cs : List Char) : Option Nat :=
  (digits12Then (fun c => c = '/' ∨ c = '-') cs).bind fun r1 =>
  (digits12Then (fun c => c = '/' ∨ c = '-') r1.2).bind fun r2 =>
  let yr := munchDigits r2.2
  if yr ≥ 2 then some (cs.length - r2.2.length + min yr 4) else none

/-- Second alternative `\d{4}-\d{2}-\d{2}`: length matched. -/
def matchAlt2 (cs : List Char) : Option Nat :=
  (chompDigitsExact 4 cs).bind fun r1 =>
  (chompChar (· = '-') r1.2).bind fun r2 =>
  (chompDigitsExact 2 r2).bind fun r3 =>
  (chompChar (· = '-') r3.2).bind fun r4 =>
  (chompDigitsExact 2 r4).bind fun r5 =>
  some (cs.length - r5.2.length)

def matchAlt3 (cs : List Char) : Option Nat :=
  (spanishForm1 cs).map (fun r => cs.length - r.2.2.2.length)

def matchAlt4 (cs : List Char) : Option Nat :=
  (spanishForm2 cs).map (fun r => cs.length - r.2.2.2.length)

/-- `DATE_PATTERN` match attempt at the head of `cs`: alternatives in
source order, returning the matched length. -/
def matchDateAt (cs : List Char) : Option Nat :=
  (matchAlt1 cs).orElse fun _ =>
  (matchAlt2 cs).orElse fun _ =>
  (matchAlt3 cs).orElse fun _ => matchAlt4 cs

/-- `DATE_PATTERN.finditer`: `(start, length)` pairs of the
non-overlapping left-to-right matches. -/
def finditerAux : Nat → List Char → Nat → List (Nat × Nat)
  | 0, _, _ => []
  | fuel + 1, cs, pos =>
    match cs with
    | [] => []
    | _ :: t =>
      match matchDateAt cs with
      | some len => (pos, len) :: finditerAux fuel (cs.drop len) (pos + len)
      | none => finditerAux fuel t (pos + 1)

def dateFinds (cs : List Char) : List (Nat × Nat) := finditerAux cs.length cs 0

/-- Python slice `cs[a:b]`. -/
def slice (cs : List Char) (a b : Nat) : List Char := (cs.take b).drop a

/-! ### text_parser.py: strptime-based numeric date parsing

`datetime.strptime` is embedded with CPython's `_strptime` regex
fragments for `%d`, `%m`, `%y`, `%Y` (including the full-match
requirement and the 1968/1969 two-digit-year pivot applied by
`strptime` itself before `datetime` construction). -/

/-- `%d` fragment `3[01]|[12]\d|0[1-9]|[1-9]| [1-9]`. -/
def strpDay (cs : List Char) : Option (Nat × List Char) :=
  match cs with
  | c0 :: c1 :: rest =>
    if c0 = '3' ∧ (c1 = '0' ∨ c1 = '1') then some (30 + (c1.toNat - 48), rest)
    else if (c0 = '1' ∨ c0 = '2') ∧ pyIsDigit c1 then
      some (10 * (c0.toNat - 48) + (c1.toNat - 48), rest)
    else if c0 = '0' ∧ ('1' ≤ c1 ∧ c1 ≤ '9') then some (c1.toNat - 48, rest)
    else if '1' ≤ c0 ∧ c0 ≤ '9' then some (c0.toNat - 48, c1 :: rest)
    else if c0 = ' ' ∧ ('1' ≤ c1 ∧ c1 ≤ '9') then some (c1.toNat - 48, rest)
    else none
  | [c0] => if '1' ≤ c0 ∧ c0 ≤ '9' then some (c0.toNat - 48, []) else none
  | [] => none

/-- `%m` fragment `1[0-2]|0[1-9]|[1-9]`. -/
def strpMonth (cs : List Char) : Option (Nat × List Char) :=
  match cs with
  | c0 :: c1 :: rest =>
    if c0 = '1' ∧ (c1 = '0' ∨ c1 = '1' ∨ c1 = '2') then
      some (10 + (c1.toNat - 48), rest)
    else if c0 = '0' ∧ ('1' ≤ c1 ∧ c1 ≤ '9') then some (c1.toNat - 48, rest)
    else if '1' ≤ c0 ∧ c0 ≤ '9' then some (c0.toNat - 48, c1 :: rest)
    else none
  | [c0] => if '1' ≤ c0 ∧ c0 ≤ '9' then some (c0.toNat - 48, []) else none
  | [] => none

/-- `datetime.strptime(text, "%d<sep>%m<sep>%Y")` or with `%y` when
`twoDigitYear`; returns the (already pivoted) datetime components. -/
def strptimeDMY (sep : Char) (twoDigitYear : Bool) (cs : List Char) :
    Option (Nat × Nat × Nat) :=
  (strpDay cs).bind fun dr =>
  (chompChar (· = sep) dr.2).bind fun r1 =>
  (strpMonth r1).bind fun mr =>
  (chompChar (· = sep) mr.2).bind fun r2 =>
  (chompDigitsExact (if twoDigitYear then 2 else 4) r2).bind fun yr =>
  if yr.2 = [] then
    let y := if twoDigitYear then
        (if yr.1 ≤ 68 then yr.1 + 2000 else yr.1 + 1900)
      else yr.1
    if (mkDate y mr.1 dr.1).isSome then some (y, mr.1, dr.1) else none
  else none

/-- `datetime.strptime(text, "%Y-%m-%d")`. -/
def strptimeYMD (cs : List Char) : Option (Nat × Nat × Nat) :=
  (chompDigitsExact 4 cs).bind fun yr =>
  (chompChar (· = '-') yr.2).bind fun r1 =>
  (strpMonth r1).bind fun mr =>
  (chompChar (· = '-') mr.2).bind fun r2 =>
  (strpDay r2).bind fun dr =>
  if dr.2 = [] then
    if (mkDate yr.1 mr.1 dr.1).isSome then some (yr.1, mr.1, dr.1) else none
  else none

/-- The body of `_parse_numeric_date`'s loop for one successful strptime:
the (dead for `%y`) two-digit-year adjustment and `date` construction. -/
def numericAdjust (ymd : Nat × Nat × Nat) : Option Int :=
  let y := ymd.1
  let y2 := if y < 100 then (if y < 50 then y + 2000 else y + 1900) else y
  mkDate y2 ymd.2.1 ymd.2.2

/-- `_parse_numeric_date` from text_parser.py (formats tried in source
order; a `ValueError` anywhere in the body falls through to the next
format). -/
def parseNumericDate (cs : List Char) : Option Int :=
  ((strptimeDMY '/' false cs).bind numericAdjust).orElse fun _ =>
  ((strptimeDMY '-' false cs).bind numericAdjust).orElse fun _ =>
  ((strptimeDMY '/' true cs).bind numericAdjust).orElse fun _ =>
  ((strptimeDMY '-' true cs).bind numericAdjust).orElse fun _ =>
  (strptimeYMD cs).bind numericAdjust

/-! ### text_parser.py: Spanish date parsing (can raise `ValueError`) -/

def monthsTable : List (String × Nat) :=
  [("enero", 1), ("febrero", 2), ("marzo", 3), ("abril", 4), ("mayo", 5),
   ("junio", 6), ("julio", 7), ("agosto", 8), ("septiembre", 9),
   ("setiembre", 9), ("octubre", 10), ("noviembre", 11), ("diciembre", 12)]

def monthLookup (w : List Char) : Option Nat :=
  (monthsTable.find? (fun p => p.1.toList = pyLowerStr w)).map (·.2)

/-- `_parse_spanish_date`: `date(year, month, day)` is constructed without
a surrounding try/except, so an invalid calendar triple raises
(`Except.error ()`). -/
def parseSpanishDate (cs : List Char) : Except Unit (Option Int) :=
  let second : Except Unit (Option Int) :=
    match spanishForm2 cs with
    | some (w, d, y, _) =>
      match monthLookup w with
      | some m =>
        (match mkDate y m d with
         | some o => .ok (some o)
         | none => .error ())
      | none => .ok none
    | none => .ok none
  match spanishForm1 cs with
  | some (d, w, y, _) =>
    match monthLookup w with
    | some m =>
      (match mkDate y m d with
       | some o => .ok (some o)
       | none => .error ())
    | none => second
  | none => second

/-- `_parse_date` from text_parser.py. -/
def parseDate (cs : List Char) : Except Unit ( Option Int) :=
  let cleaned := pyStrip cs
  match parseNumericDate cleaned with
  | some d => .ok (some d)
  | none => parseSpanishDate cleaned

/-! ### text_parser.py: sections and field extraction -/

/-- `str.splitlines` (restricted to the `\n`, `\r`, `\r\n` terminators):
every terminator closes a line, trailing text without a terminator forms
a final line, and a trailing terminator adds no empty final line. -/
def splitlinesAux : List Char → List Char → List (List Char)
  | '\x0d' :: '\n' :: t, acc => acc.reverse :: splitlinesAux t []
  | '\x0d' :: t, acc => acc.reverse :: splitlinesAux t []
  | '\n' :: t, acc => acc.reverse :: splitlinesAux t []
  | c :: t, acc => splitlinesAux t (c :: acc)
  | [], acc => if acc = [] then [] else [acc.reverse]

def pySplitlines (cs : List Char) : List (List Char) := splitlinesAux cs []

def KEYWORDS_START : List String :=
  ["ingreso", "inicio", "desde", "vinculación", "vinculo", "se vinculó"]

def KEYWORDS_END : List String :=
  ["retiro", "terminación", "hasta", "culminación", "finalización",
   "finalizo", "finalizó"]

def KEYWORDS_ISSUE : List String :=
  ["expedido", "expide", "emitido", "fecha de expedición"]

def EMPLOYER_HINTS : List String :=
  ["empresa", "entidad", "compañía", "compania", "organización",
   "organizacion", "institución", "institucion", "razón social",
   "razon social", "dependencia"]

/-- `split_into_sections`: each section is its list of (stripped,
non-empty) lines. -/
def splitIntoSections (text : List Char) : List (List (List Char)) :=
  let lines := (pySplitlines text).map pyStrip
  let step : (List (List (List Char)) × List (List Char)) → List Char →
      (List (List (List Char)) × List (List Char)) := fun st line =>
    if line = [] then
      (if st.2 = [] then st.1 else st.1 ++ [st.2], [])
    else (st.1, st.2 ++ [line])
  let r := lines.foldl step ([], [])
  if r.2 = [] then r.1 else r.1 ++ [r.2]

/-- `ParsedSection.text`. -/
def sectionText (lines : List (List Char)) : List Char :=
  (List.intersperse ['\n'] lines).foldl (· ++ ·) []

/-- `_find_first_matching_date` (the `position` argument as in source;
all call sites pass "before"). -/
def findFirstMatchingDate (secText : List Char) (keywords : List String)
    (position : String) : Except Unit (Option Int) :=
  let lowered := pyLowerStr secText
  let go : List (Nat × Nat) → Except Unit (Option Int) := fun ms =>
    ms.foldl
      (fun acc m =>
        match acc with
        | .error e => .error e
        | .ok (some d) => .ok (some d)
        | .ok none =>
          let before := slice lowered (m.1 - 80) m.1
          let after := slice lowered (m.1 + m.2) (min (m.1 + m.2 + 80) secText.length)
          let beforeMatch := (position = "before" ∨ position = "any") ∧
            keywords.any (fun k => containsSub k.toList before)
          let afterMatch := (position = "after" ∨ position = "any") ∧
            keywords.any (fun k => containsSub k.toList after)
          if beforeMatch ∨ afterMatch then
            match parseDate (slice secText m.1 (m.1 + m.2)) with
            | .error e => .error e
            | .ok (some d) => .ok (some d)
            | .ok none => .ok none
          else .ok none)
      (.ok none)
  go (dateFinds secText)

/-- `_extract_issue_date`: parse the last `DATE_PATTERN` candidate. -/
def extractIssueDate (lines : List (List Char)) : Except Unit (Option Int) :=
  let t := sectionText lines
  match (dateFinds t).getLast? with
  | none => .ok none
  | some m => parseDate (slice t m.1 (m.1 + m.2))

/-- The alternatives of the hint-removal `re.sub` pattern, in source
order, as per-position lowercase character classes. -/
def hintSubPats : List (List (List Char)) :=
  ["empresa".toList.map (fun c => [c]),
   "entidad".toList.map (fun c => [c]),
   [['c'], ['o'], ['m'], ['p'], ['a'], ['ñ', 'n'], ['í'], ['a']],
   "organización".toList.map (fun c => [c]),
   "organizacion".toList.map (fun c => [c]),
   [['i'], ['n'], ['s'], ['t'], ['i'], ['t'], ['u'], ['c'], ['i'], ['ó', 'o'], ['n']],
   [['r'], ['a'], ['z'], ['ó', 'o'], ['n'], [' '], ['s'], ['o'], ['c'], ['i'], ['a'], ['l']],
   "dependencia".toList.map (fun c => [c]),
   [[':']]]

def matchClassPatAt (pat : List (List Char)) (cs : List Char) : Bool :=
  match pat, cs with
  | [], _ => true
  | _ :: _, [] => false
  | p :: ps, c :: rest => (pyLower c ∈ p) && matchClassPatAt ps rest

/-- The `re.sub(..., "", line)` removal of hint tokens (leftmost scan,
alternatives in order). -/
def subHints : Nat → List Char → List Char
  | 0, _ => []
  | _ + 1, [] => []
  | fuel + 1, c :: rest =>
    match hintSubPats.find? (fun pat => matchClassPatAt pat (c :: rest)) with
    | some pat => subHints fuel ((c :: rest).drop pat.length)
    | none => c :: subHints fuel rest

/-- `_extract_employer` from text_parser.py. -/
def extractEmployer (lines : List (List Char)) : Option (List Char) :=
  let hinted := lines.foldl
    (fun acc line =>
      match acc with
      | some r => some r
      | none =>
        let lowered := pyLowerStr line
        if EMPLOYER_HINTS.any (fun h => containsSub h.toList lowered) then
          let cleaned := pyStripChars [' ', '-', ':'] (subHints line.length line)
          if cleaned = [] then none else some cleaned
        else none)
    none
  match hinted with
  | some r => some r
  | none =>
    let candidate := lines.foldl
      (fun best line =>
        if pyStrip line = [] then best
        else match best with
          | none => some line
          | some b => if line.length > b.length then some line else some b)
      none
    candidate.map pyStrip

/-- `parse_experiences_from_text` from text_parser.py (in `Except` because
`_parse_spanish_date` can raise `ValueError`). -/
def parseExperiencesFromText (text : String) (source : String) :
    Except Unit (List ExperienceRecord) :=
  let sections0 := splitIntoSections text.toList
  let sections := if sections0 = [] then [[text.toList]] else sections0
  sections.foldlM
    (fun acc lines => do
      let secText := sectionText lines
      let start_date ← findFirstMatchingDate secText KEYWORDS_START "before"
      let end_date ← findFirstMatchingDate secText KEYWORDS_END "before"
      let issue0 ← findFirstMatchingDate secText KEYWORDS_ISSUE "before"
      let issue_date ← match issue0 with
        | none => extractIssueDate lines
        | some d => pure (some d)
      if start_date = none ∧ end_date = none ∧ issue_date = none then
        pure acc
      else
        let employer := (extractEmployer lines).map (fun cs => String.mk cs)
        pure (acc ++ [mkExperienceRecord source employer start_date end_date issue_date]))
    ([] : List ExperienceRecord)

/-! ### text_parser.py: merge_overlapping_records

The Python function mutates the record objects the caller passed in
(`current.end_date = ...; current.__post_init__()`), so it is embedded
with an explicit store: the input list is the store, records are
identified by index, and the function returns the final store together
with the `(index, value-at-emission)` pairs appended to `merged`.  The
list Python returns holds references, so its observable values are the
final-store values at the emitted indices. -/

def defaultRecord : ExperienceRecord := mkExperienceRecord "" none none none none

def getRec (store : List ExperienceRecord) (i : Nat) : ExperienceRecord :=
  store.getD i defaultRecord

/-- `(record.employer or "").strip().lower()`. -/
def mergeKeyOf (r : ExperienceRecord) : List Char :=
  pyLowerStr (pyStrip (r.employer.getD "").toList)

/-- The `grouped` dict: insertion-ordered buckets of store indices. -/
def groupIndices (store : List ExperienceRecord) : List (List Char × List Nat) :=
  store.enum.foldl
    (fun acc p =>
      let key := mergeKeyOf p.2
      if acc.any (fun g => g.1 = key) then
        acc.map (fun g => if g.1 = key then (g.1, g.2 ++ [p.1]) else g)
      else acc ++ [(key, [p.1])])
    []

/-- Stable insertion: `a` goes before the first element whose key it does
not exceed. -/
def orderedInsertIdx (key : Nat → Int) (a : Nat) : List Nat → List Nat
  | [] => [a]
  | b :: l => if key a ≤ key b then a :: b :: l else b :: orderedInsertIdx key a l

/-- Stable sort by key (Python `sorted` is a stable sort, and a stable
sort by a total preorder is unique). -/
def insertionSortIdx (key : Nat → Int) : List Nat → List Nat
  | [] => []
  | a :: l => orderedInsertIdx key a (insertionSortIdx key l)

/-- `sorted(items, key=lambda rec: rec.start_date or date.min)`. -/
def sortGroup (store : List ExperienceRecord) (items : List Nat) : List Nat :=
  insertionSortIdx (fun i => (getRec store i).start_date.getD dateMinOrd) items

/-- The guard `current.start_date and next_item.start_date and
current.effective_end_date and next_item.start_date <=
current.effective_end_date`. -/
def groupOverlap (cur nxt : ExperienceRecord) : Bool :=
  match cur.start_date, nxt.start_date, cur.effective_end_date with
  | some _, some ns, some ce => decide (ns ≤ ce)
  | _, _, _ => false

/-- The guard `next_item.effective_end_date and
(current.effective_end_date is None or next_item.effective_end_date >
current.effective_end_date)`. -/
def groupExtend (cur nxt : ExperienceRecord) : Bool :=
  nxt.effective_end_date.isSome &&
    (cur.effective_end_date.isNone ||
      (match nxt.effective_end_date, cur.effective_end_date with
       | some ne, some ce => decide (ne > ce)
       | _, _ => false))

/-- The absorption: `current.end_date = next_item.end_date or
current.end_date; current.issue_date = next_item.issue_date or
current.issue_date; current.__post_init__()`. -/
def groupUpdated (cur nxt : ExperienceRecord) : ExperienceRecord :=
  postInit
    { cur with
      end_date := nxt.end_date.orElse (fun _ => cur.end_date),
      issue_date := nxt.issue_date.orElse (fun _ => cur.issue_date) }

/-- One iteration of the inner `for next_item in items[1:]` loop.
State: (store, emitted (index, snapshot) pairs, current index). -/
def groupStep (st : List ExperienceRecord × List (Nat × ExperienceRecord) × Nat)
    (j : Nat) : List ExperienceRecord × List (Nat × ExperienceRecord) × Nat :=
  let store := st.1
  let current := st.2.2
  let cur := getRec store current
  let nxt := getRec store j
  if groupOverlap cur nxt then
    if groupExtend cur nxt then
      (store.set current (groupUpdated cur nxt), st.2.1, current)
    else
      (store, st.2.1, current)
  else
    (store, st.2.1 ++ [(current, cur)], j)

/-- Process one group's (sorted) indices; returns the updated store and
the `(index, snapshot)` pairs appended to `merged`. -/
def processGroup (store : List ExperienceRecord) (items : List Nat) :
    List ExperienceRecord × List (Nat × ExperienceRecord) :=
  match sortGroup store items with
  | [] => (store, [])
  | first :: rest =>
    let st := rest.foldl groupStep (store, [], first)
    (st.1, st.2.1 ++ [(st.2.2, getRec st.1 st.2.2)])

def mergeRun (store : List ExperienceRecord) :
    List ExperienceRecord × List (Nat × ExperienceRecord) :=
  (groupIndices store).foldl
    (fun acc g =>
      let r := processGroup acc.1 g.2
      (r.1, acc.2 ++ r.2))
    (store, [])

/-- `merge_overlapping_records`: the returned records are the final-store
values at the emitted indices. -/
def mergeOverlappingRecords (store : List ExperienceRecord) :
    List ExperienceRecord :=
  let r := mergeRun store
  r.2.map (fun p => getRec r.1 p.1)

/-! ### Spec-side definitions (worded after the specification, for
refinement comparisons against the code-side definitions above) -/

/-- Spec wording: "the minimum of the non-null values among `end_date`
and `issue_date`", null when both are null. -/
def specMinNonNull (e i : Option Int) : Option Int :=
  match e, i with
  | some a, some b => some (min a b)
  | some a, none => some a
  | none, some b => some b
  | none, none => none

/-- Spec wording for `experience_days`: "(effective_end_date -
start_date).days + 1, clamped to a minimum of 0 when the subtraction
would be negative; null otherwise". -/
def specExperienceDays (s e : Option Int) : Option Int :=
  match s, e with
  | some s', some e' => some (max 0 (e' - s' + 1))
  | _, _ => none

/-- Spec wording for date closeness: 1.0 when both start dates are
present and differ by at most 7 days, otherwise `1/(1 + d/30)` with `d`
the absolute day difference, taking `d = 60` when either start date is
missing. -/
def specDateCloseness (a b : Option Int) : ℚ :=
  match a, b with
  | some x, some y =>
    if |x - y| ≤ 7 then 1 else 1 / (1 + ((|x - y| : ℤ) : ℚ) / 30)
  | _, _ => 1 / (1 + (60 : ℚ) / 30)

/-- Spec wording for the combined pairwise score:
`0.7 × similarity + 0.3 × dateCloseness`. -/
def specCombinedScore (certificate cv_entry : ExperienceRecord) : ℚ :=
  (7 / 10 : ℚ) * employerSimilarity certificate.employer cv_entry.employer +
    (3 / 10 : ℚ) * specDateCloseness certificate.start_date cv_entry.start_date

def cexCert : ExperienceRecord :=
  mkExperienceRecord "Certificado" (some "a") (some 100) (some 200) none

def cexCv : ExperienceRecord :=
  mkExperienceRecord "Hoja de vida" (some "a") (some 100) (some 200) none

def cexMergeA : ExperienceRecord :=
  mkExperienceRecord "c" (some "e") (some 1) none (some 62)

def cexMergeB : ExperienceRecord :=
  mkExperienceRecord "c" (some "e") (some 31) (some 300) none

def cexAccA : ExperienceRecord :=
  mkExperienceRecord "c" (some "Compañía S.A.") (some 1) (some 100) none

def cexAccB : ExperienceRecord :=
  mkExperienceRecord "c" (some "compania sa") (some 50) (some 200) none

def synthDetails : String := "Registro presente solo en la hoja de vida"

def cexRes : ComparisonResult :=
  { certificate := cexCert, cv_entry := some cexCv, start_date_match := true,
    details := "Coincidencia por empleador y fecha" }

/-- One step of the `grouped` fold. -/
def groupStepFn (acc : List (List Char × List Nat)) (p : Nat × ExperienceRecord) :
    List (List Char × List Nat) :=
  let key := mergeKeyOf p.2
  if acc.any (fun g => g.1 = key) then
    acc.map (fun g => if g.1 = key then (g.1, g.2 ++ [p.1]) else g)
  else acc ++ [(key, [p.1])]

/-- Fold invariant: distinct keys, and every member of a bucket has that
bucket's key. -/
def GroupInv (store : List ExperienceRecord) (acc : List (List Char × List Nat)) : Prop :=
  ((acc.map (fun g => g.1)).Nodup) ∧
    ∀ g ∈ acc, ∀ k ∈ g.2, mergeKeyOf (getRec store k) = g.1

def UsedOk (n : Nat) (used : List Nat) : Prop :=
  used.Nodup ∧ ∀ u ∈ used, u < n

/-- Flattened index list of the grouped buckets. -/
def groupFlat (acc : List (List Char × List Nat)) : List Nat :=
  acc.flatMap (fun g => g.2)

/-! ### C3 -/

/-- C3: for every `ExperienceRecord` as constructed,
`effective_end_date` is the minimum of the non-null values among
`end_date` and `issue_date`, and is null when both are null or when
`start_date` is null. -/
theorem c3_effective_end_correct (source : String) (employer : Option String)
    (s e i : Option Int) :
    (mkExperienceRecord source employer s e i).effective_end_date =
      match s with
      | none => none
      | some _ => specMinNonNull e i := by
  cases s <;> cases e <;> cases i <;> rfl

/-! ### C4 -/

/-- C4: for every `ExperienceRecord` as constructed, `experience_days`
is `(effective_end_date - start_date) + 1` clamped below at 0 when both
dates are present, and null otherwise. -/
theorem c4_experience_days_correct (source : String) (employer : Option String)
    (s e i : Option Int) :
    (mkExperienceRecord source employer s e i).experience_days =
      specExperienceDays s
        ((mkExperienceRecord source employer s e i).effective_end_date) := by
  have h : ∀ (a b : Option Int), computeDays a b = specExperienceDays a b := by
    intro a b
    cases a with
    | none => rfl
    | some s' =>
      cases b with
      | none => rfl
      | some e' =>
        simp only [computeDays, specExperienceDays]
        split
        · have : max 0 (e' - s' + 1) = 0 := by omega
          rw [this]
        · have : max 0 (e' - s' + 1) = e' - s' + 1 := by omega
          rw [this]
  exact h s _

/-! ### C2 -/

/-- C2: the pairwise score of `_score_pair` equals
`0.7 × similarity + 0.3 × dateCloseness` with date closeness exactly as
the spec words it (1.0 within 7 days, `1/(1+d/30)` otherwise, `d = 60`
when a start date is missing). -/
theorem c2_pairwise_score_correct (certificate cv_entry : ExperienceRecord) :
    (scorePair certificate cv_entry).score =
      specCombinedScore certificate cv_entry := by
  unfold scorePair specCombinedScore specDateCloseness dateDifference
  cases hc : certificate.start_date with
  | none => cases cv_entry.start_date <;> simp
  | some x =>
    cases hv : cv_entry.start_date with
    | none => simp
    | some y =>
      simp only []
      by_cases h7 : |x - y| ≤ 7
      · simp [h7]
      · have hne : |x - y| ≠ 0 := by
          intro h0
          exact h7 (by rw [h0]; norm_num)
        simp [h7, hne]

/-! ### C7 (two-digit-year pivot) -/

/-- C7: the date recognizer maps the two-digit year 50 to 2050, not to
1950 as the claim states: `strptime` itself resolves `%y` with the
POSIX pivot (00-68 → 2000s, 69-99 → 1900s) before the parser's own
pivot-at-50 adjustment can run, so that adjustment is dead code.
`748383` is the ordinal of 2050-01-01 and `711858` that of
1950-01-01. -/
theorem c7_two_digit_year_pivot_is_68 :
    parseNumericDate ("01/01/50".toList) = some 748383 ∧
      mkDate 2050 1 1 = some 748383 ∧
      mkDate 1950 1 1 = some 711858 ∧
      parseNumericDate ("01/01/68".toList) = mkDate 2068 1 1 ∧
      parseNumericDate ("01/01/69".toList) = mkDate 1969 1 1 := by
  refine ⟨by decide, by decide, by decide, by decide, by decide⟩

/-! ### C9 (parser can raise) -/

/-- C9: `parse_experiences_from_text` raises `ValueError` on the input
"99 de enero de 2020": the section's only date candidate is taken as the
issuance fallback and `_parse_spanish_date` constructs
`date(2020, 1, 99)` without a surrounding try/except. -/
theorem c9_parser_raises_on_invalid_spanish_day :
    parseExperiencesFromText "99 de enero de 2020" "Certificado" =
      Except.error () := by
  rfl

/-! ### Concrete records used in counterexamples and witnesses -/

/-! ### C1 -/

theorem cexSim : employerSimilarity (some "a") (some "a") = 1 := by
  unfold employerSimilarity
  norm_num [show normalizeName (some "a") = ['a'] from by decide]
  unfold smRatio
  norm_num [show matchingSize ['a'] ['a'] 3 0 1 0 1 = 1 from by decide]

theorem cexScoreEq : (scorePair cexCert cexCv).score = 1 := by
  have h : (scorePair cexCert cexCv).score =
      (7 / 10 : ℚ) * employerSimilarity (some "a") (some "a") + (3 / 10 : ℚ) * 1 := rfl
  rw [h, cexSim]; norm_num

theorem cexThr : (scorePair cexCert cexCv).score > 3 / 10 := by
  rw [cexScoreEq]; norm_num

theorem cexBest : bestCvMatch cexCert [cexCv] = some (scorePair cexCert cexCv, 0) := rfl

theorem cexStep1 : compareStep [cexCv] ([], []) cexCert = ([cexRes], [0]) := by
  unfold compareStep
  simp only [cexBest]
  rw [if_pos cexThr]
  simp [show (scorePair cexCert cexCv).start_date_match = true from by decide, cexRes]

theorem cexStep2 : compareStep [cexCv] ([cexRes], [0]) cexCert = ([cexRes, cexRes], [0]) := by
  unfold compareStep
  simp only [cexBest]
  rw [if_pos cexThr]
  simp [show (scorePair cexCert cexCv).start_date_match = true from by decide, cexRes]

theorem cexCompareEq :
    compareCertificatesWithCv [cexCert, cexCert] [cexCv] = [cexRes, cexRes] := by
  unfold compareCertificatesWithCv compareMain
  simp only [List.foldl_cons, List.foldl_nil, cexStep1, cexStep2]
  simp [List.enum]

/-- C1 counterexample: two identical certificates against one résumé
record.  The first certificate accepts the résumé record as its best
match above the 0.3 threshold, yet the second certificate's result has
the very same résumé record as its `cv_entry` (the matching loop never
consults the used-index set), contradicting the claim. -/
theorem c1_counterexample :
    (scorePair cexCert cexCv).score > 3 / 10 ∧
      (compareCertificatesWithCv [cexCert, cexCert] [cexCv]).map
          (fun r => r.cv_entry) = [some cexCv, some cexCv] := by
  refine ⟨cexThr, ?_⟩
  rw [cexCompareEq]
  rfl

/-! ### C5 -/

/-- C5 counterexample: "Compañía S.A." and "compania sa" have the same
diacritic- and punctuation-stripped normalized name, yet
`merge_overlapping_records` puts them in two different groups (its key
is only trimmed and case-folded), so the two overlapping records are
returned unmerged. -/
theorem c5_counterexample :
    normalizeName (some "Compañía S.A.") = normalizeName (some "compania sa") ∧
      cexAccB.start_date = some 50 ∧ cexAccA.effective_end_date = some 100 ∧
      (groupIndices [cexAccA, cexAccB]).length = 2 ∧
      (mergeOverlappingRecords [cexAccA, cexAccB]).length = 2 := by
  refine ⟨by decide, by decide, by decide, by decide, by decide⟩

/-! ### C6 -/

/-- C6 counterexample: merging two overlapping same-employer records
mutates the first input record in place — after the call the store's
record 0 has `end_date = some 300` although it was constructed with
`end_date = none`. -/
theorem c6_counterexample :
    cexMergeA.end_date = none ∧
      (mergeRun [cexMergeA, cexMergeB]).1.map (fun r => r.end_date) =
        [some 300, some 300] := by
  refine ⟨by decide, by decide⟩

/-! ### C8 -/

/-- C8 counterexample: two overlapping same-employer records with
`experience_days` 62 and 270; absorption keeps the running record's
early `issue_date`, so the single merged record still has
`experience_days = 62 < 270`, contradicting "never decreases relative to
the larger of the two inputs". -/
theorem c8_counterexample :
    cexMergeA.employer = cexMergeB.employer ∧
      cexMergeB.start_date = some 31 ∧ cexMergeA.effective_end_date = some 62 ∧
      cexMergeA.experience_days = some 62 ∧
      cexMergeB.experience_days = some 270 ∧
      (mergeOverlappingRecords [cexMergeA, cexMergeB]).map
        (fun r => r.experience_days) = [some 62] := by
  refine ⟨by decide, by decide, by decide, by decide, by decide, by decide⟩

/-! ### C10 -/

theorem mem_compareStep_details (cv_list : List ExperienceRecord)
    (st : List ComparisonResult × List Nat) (c : ExperienceRecord)
    (r : ComparisonResult) (hr : r ∈ (compareStep cv_list st c).1) :
    r ∈ st.1 ∨ r.details ≠ synthDetails := by
  have hne1 : ("No se encontró coincidencia en la hoja de vida" : String) ≠ synthDetails := by
    decide
  have hne2 : ("Coincidencia por empleador y fecha" : String) ≠ synthDetails := by
    decide
  have hne3 : ("Coincidencia parcial" : String) ≠ synthDetails := by decide
  rcases hb : bestCvMatch c cv_list with _ | ⟨best, idx⟩ <;>
    simp only [compareStep, hb] at hr
  · rcases List.mem_append.mp hr with h | h
    · exact Or.inl h
    · right; rw [List.mem_singleton.mp h]; exact hne1
  · by_cases ht : best.score > 3 / 10
    · rw [if_pos ht] at hr
      rcases List.mem_append.mp hr with h | h
      · exact Or.inl h
      · right; rw [List.mem_singleton.mp h]
        by_cases hm : best.start_date_match = true
        · simpa [hm] using hne2
        · simpa [hm] using hne3
    · rw [if_neg ht] at hr
      rcases List.mem_append.mp hr with h | h
      · exact Or.inl h
      · right; rw [List.mem_singleton.mp h]; exact hne1

theorem mem_compareMain_details (cv_list : List ExperienceRecord) :
    ∀ (certs : List ExperienceRecord) (st : List ComparisonResult × List Nat),
      (∀ r ∈ st.1, r.details ≠ synthDetails) →
      ∀ r ∈ (certs.foldl (compareStep cv_list) st).1, r.details ≠ synthDetails := by
  intro certs
  induction certs with
  | nil => intro st h r hr; exact h r hr
  | cons c cs ih =>
    intro st h r hr
    refine ih (compareStep cv_list st c) ?_ r hr
    intro r' hr'
    rcases mem_compareStep_details cv_list st c r' hr' with h' | h'
    · exact h r' h'
    · exact h'

/-- C10: every résumé-only result appended by
`compare_certificates_with_cv` has a synthetic certificate whose
`issue_date` is null, and whose derived fields are computed from its
`start_date` and `end_date` alone (issue passed as null). -/
theorem c10_synthetic_issue_null (certs cvs : List ExperienceRecord)
    (r : ComparisonResult) (hr : r ∈ compareCertificatesWithCv certs cvs)
    (hd : r.details = synthDetails) :
    r.certificate.issue_date = none ∧
      r.certificate.effective_end_date =
        computeEffectiveEnd r.certificate.start_date r.certificate.end_date none ∧
      r.certificate.experience_days =
        computeDays r.certificate.start_date
          (computeEffectiveEnd r.certificate.start_date r.certificate.end_date none) := by
  unfold compareCertificatesWithCv at hr
  rcases List.mem_append.mp hr with hmain | hsynth
  · exact absurd hd (mem_compareMain_details cvs certs ([], [])
      (by intro r' hr'; exact absurd hr' (List.not_mem_nil r')) r hmain)
  · rcases List.mem_filterMap.mp hsynth with ⟨p, _, hp⟩
    by_cases hu : p.1 ∈ (compareMain certs cvs).2
    · rw [if_pos hu] at hp; exact absurd hp (by simp)
    · rw [if_neg hu] at hp
      have hr2 : r = syntheticRow p.2 := by
        injection hp with h; exact h.symm
      subst hr2
      exact ⟨rfl, rfl, rfl⟩

/-- Witness for C10 at a concrete input. -/
theorem c10_synthetic_issue_null_witness :
    (syntheticRow cexCv).certificate.issue_date = none ∧
      (syntheticRow cexCv).certificate.effective_end_date =
        computeEffectiveEnd (syntheticRow cexCv).certificate.start_date
          (syntheticRow cexCv).certificate.end_date none ∧
      (syntheticRow cexCv).certificate.experience_days =
        computeDays (syntheticRow cexCv).certificate.start_date
          (computeEffectiveEnd (syntheticRow cexCv).certificate.start_date
            (syntheticRow cexCv).certificate.end_date none) :=
  c10_synthetic_issue_null [] [cexCv] (syntheticRow cexCv) (by decide) (by decide)

theorem cee_ss (s a b : Int) : computeEffectiveEnd (some s) (some a) (some b) = some (min a b) := rfl
theorem cee_sn (s a : Int) : computeEffectiveEnd (some s) (some a) none = some a := rfl
theorem cee_ns (s b : Int) : computeEffectiveEnd (some s) none (some b) = some b := rfl
theorem cee_nn (s : Int) : computeEffectiveEnd (some s) none none = none := rfl

theorem effExtend (s1 s2 ee1 ne : Int) (e1 i1 e2 i2 : Option Int)
    (h1 : computeEffectiveEnd (some s1) e1 i1 = some ee1)
    (h2 : computeEffectiveEnd (some s2) e2 i2 = some ne)
    (hgt : ee1 < ne) :
    ∃ v, computeEffectiveEnd (some s1) (e2.orElse fun _ => e1)
        (i2.orElse fun _ => i1) = some v ∧ ee1 ≤ v := by
  rcases e1 with _ | a1 <;> rcases i1 with _ | b1 <;>
    rcases e2 with _ | a2 <;> rcases i2 with _ | b2 <;>
    simp [cee_ss, cee_sn, cee_ns, cee_nn, Option.orElse] at h1 h2 ⊢ <;>
    omega

theorem mk_employer (so : String) (emp : Option String) (s e i : Option Int) :
    (mkExperienceRecord so emp s e i).employer = emp := rfl
theorem mk_start (so : String) (emp : Option String) (s e i : Option Int) :
    (mkExperienceRecord so emp s e i).start_date = s := rfl
theorem mk_end (so : String) (emp : Option String) (s e i : Option Int) :
    (mkExperienceRecord so emp s e i).end_date = e := rfl
theorem mk_issue (so : String) (emp : Option String) (s e i : Option Int) :
    (mkExperienceRecord so emp s e i).issue_date = i := rfl
theorem mk_eff (so : String) (emp : Option String) (s e i : Option Int) :
    (mkExperienceRecord so emp s e i).effective_end_date = computeEffectiveEnd s e i := rfl
theorem mk_days (so : String) (emp : Option String) (s e i : Option Int) :
    (mkExperienceRecord so emp s e i).experience_days =
      computeDays s (computeEffectiveEnd s e i) := rfl

theorem postInit_days (r : ExperienceRecord) :
    (postInit r).experience_days =
      computeDays r.start_date (computeEffectiveEnd r.start_date r.end_date r.issue_date) := rfl

/-- C8 amended: merging two overlapping same-employer records yields a
single record whose `experience_days` is at least the earlier-sorted
record's `experience_days` (the later record's can be lost to a retained
early issue date). -/
theorem c8_amended_merge_days_ge_earlier (so1 so2 : String) (emp : Option String) (s1 s2 ee1 : Int)
    (e1 i1 e2 i2 : Option Int)
    (hle : s1 ≤ s2)
    (heff : computeEffectiveEnd (some s1) e1 i1 = some ee1)
    (hov : s2 ≤ ee1) :
    ∃ m d1 dm,
      mergeOverlappingRecords [mkExperienceRecord so1 emp (some s1) e1 i1,
        mkExperienceRecord so2 emp (some s2) e2 i2] = [m] ∧
      (mkExperienceRecord so1 emp (some s1) e1 i1).experience_days = some d1 ∧
      m.experience_days = some dm ∧ d1 ≤ dm := by
  have hg : groupIndices [mkExperienceRecord so1 emp (some s1) e1 i1,
      mkExperienceRecord so2 emp (some s2) e2 i2] =
      [(mergeKeyOf (mkExperienceRecord so1 emp (some s1) e1 i1), [0, 1])] := by
    simp [groupIndices, List.enum, mergeKeyOf, mk_employer]
  have hsort : sortGroup [mkExperienceRecord so1 emp (some s1) e1 i1,
      mkExperienceRecord so2 emp (some s2) e2 i2] [0, 1] = [0, 1] := by
    simp [sortGroup, insertionSortIdx, orderedInsertIdx, getRec, mk_start, hle]
  have hd1 : (mkExperienceRecord so1 emp (some s1) e1 i1).experience_days =
      some (if ee1 < s1 then 0 else ee1 - s1 + 1) := by
    rw [mk_days, heff]
    by_cases h : ee1 < s1 <;> simp [computeDays, h]
  -- helper to finish the no-extension cases
  have finish_noext :
      groupStep ([mkExperienceRecord so1 emp (some s1) e1 i1,
          mkExperienceRecord so2 emp (some s2) e2 i2], [], 0) 1 =
        ([mkExperienceRecord so1 emp (some s1) e1 i1,
          mkExperienceRecord so2 emp (some s2) e2 i2], [], 0) →
      ∃ m d1 dm,
        mergeOverlappingRecords [mkExperienceRecord so1 emp (some s1) e1 i1,
          mkExperienceRecord so2 emp (some s2) e2 i2] = [m] ∧
        (mkExperienceRecord so1 emp (some s1) e1 i1).experience_days = some d1 ∧
        m.experience_days = some dm ∧ d1 ≤ dm := by
    intro hstep
    refine ⟨mkExperienceRecord so1 emp (some s1) e1 i1,
      (if ee1 < s1 then 0 else ee1 - s1 + 1),
      (if ee1 < s1 then 0 else ee1 - s1 + 1), ?_, hd1, hd1, le_refl _⟩
    unfold mergeOverlappingRecords mergeRun
    rw [hg]
    simp only [List.foldl_cons, List.foldl_nil]
    unfold processGroup
    rw [hsort]
    simp only [List.foldl_cons, List.foldl_nil, hstep]
    simp [getRec]
  rcases h2 : computeEffectiveEnd (some s2) e2 i2 with _ | ne
  · exact finish_noext (by simp [groupStep, groupOverlap, groupExtend, getRec, mk_start, mk_eff, heff, hov, h2])
  · by_cases hgt : ee1 < ne
    · -- extension branch
      obtain ⟨v, hv, hlev⟩ := effExtend s1 s2 ee1 ne e1 i1 e2 i2 heff h2 hgt
      have hstep : groupStep ([mkExperienceRecord so1 emp (some s1) e1 i1,
            mkExperienceRecord so2 emp (some s2) e2 i2], [], 0) 1 =
          ([postInit { mkExperienceRecord so1 emp (some s1) e1 i1 with
              end_date := e2.orElse fun _ => e1,
              issue_date := i2.orElse fun _ => i1 },
            mkExperienceRecord so2 emp (some s2) e2 i2], [], 0) := by
        simp [groupStep, groupOverlap, groupExtend, groupUpdated, getRec, mk_start,
          mk_eff, mk_end, mk_issue, heff, hov, h2, hgt, List.set]
      have hdm : (postInit { mkExperienceRecord so1 emp (some s1) e1 i1 with
            end_date := e2.orElse fun _ => e1,
            issue_date := i2.orElse fun _ => i1 }).experience_days =
          some (if v < s1 then 0 else v - s1 + 1) := by
        rw [postInit_days]
        have h0 : ({ mkExperienceRecord so1 emp (some s1) e1 i1 with
            end_date := e2.orElse fun _ => e1,
            issue_date := i2.orElse fun _ => i1 } : ExperienceRecord).start_date = some s1 := rfl
        rw [h0]
        have h1 : ({ mkExperienceRecord so1 emp (some s1) e1 i1 with
            end_date := e2.orElse fun _ => e1,
            issue_date := i2.orElse fun _ => i1 } : ExperienceRecord).end_date =
            e2.orElse fun _ => e1 := rfl
        have h3 : ({ mkExperienceRecord so1 emp (some s1) e1 i1 with
            end_date := e2.orElse fun _ => e1,
            issue_date := i2.orElse fun _ => i1 } : ExperienceRecord).issue_date =
            i2.orElse fun _ => i1 := rfl
        rw [h1, h3, hv]
        by_cases h : v < s1 <;> simp [computeDays, h]
      refine ⟨_, (if ee1 < s1 then 0 else ee1 - s1 + 1),
        (if v < s1 then 0 else v - s1 + 1), ?_, hd1, hdm, ?_⟩
      · unfold mergeOverlappingRecords mergeRun
        rw [hg]
        simp only [List.foldl_cons, List.foldl_nil]
        unfold processGroup
        rw [hsort]
        simp only [List.foldl_cons, List.foldl_nil, hstep]
        simp [getRec]
      · by_cases ha : ee1 < s1 <;> by_cases hb : v < s1 <;> simp [ha, hb] <;> omega
    · exact finish_noext (by simp [groupStep, groupOverlap, groupExtend, getRec, mk_start, mk_eff, heff, hov, h2, hgt])

theorem groupIndices_eq_fold (store : List ExperienceRecord) :
    groupIndices store = store.enum.foldl groupStepFn [] := rfl

theorem groupStepFn_inv (store : List ExperienceRecord)
    (acc : List (List Char × List Nat)) (p : Nat × ExperienceRecord)
    (hp : p.2 = getRec store p.1) (h : GroupInv store acc) :
    GroupInv store (groupStepFn acc p) := by
  obtain ⟨hnd, hkey⟩ := h
  simp only [groupStepFn]
  split
  · constructor
    · have : (acc.map (fun g => if g.1 = mergeKeyOf p.2 then (g.1, g.2 ++ [p.1]) else g)).map
          (fun g => g.1) = acc.map (fun g => g.1) := by
        rw [List.map_map]
        refine List.map_congr_left ?_
        intro g _
        by_cases hk : g.1 = mergeKeyOf p.2 <;> simp [hk]
      rw [this]; exact hnd
    · intro g hg k hk
      rcases List.mem_map.mp hg with ⟨g0, hg0, hmap⟩
      by_cases hk0 : g0.1 = mergeKeyOf p.2
      · rw [if_pos hk0] at hmap
        rw [← hmap] at hk ⊢
        rcases List.mem_append.mp hk with hm | hm
        · exact hkey g0 hg0 k hm
        · rw [List.mem_singleton.mp hm, ← hp]
          exact hk0.symm
      · rw [if_neg hk0] at hmap
        rw [← hmap] at hk ⊢
        exact hkey g0 hg0 k hk
  · next hany =>
    constructor
    · rw [List.map_append]
      simp only [List.map_cons, List.map_nil]
      rw [List.nodup_append]
      refine ⟨hnd, List.nodup_singleton _, ?_⟩
      intro a ha hmem
      rcases List.mem_map.mp ha with ⟨g0, hg0, hmap⟩
      have hk : g0.1 = mergeKeyOf p.2 := by
        rw [hmap]; exact List.mem_singleton.mp hmem
      exact hany (List.any_eq_true.mpr ⟨g0, hg0, decide_eq_true hk⟩)
    · intro g hg k hk
      rcases List.mem_append.mp hg with h | h
      · exact hkey g h k hk
      · rw [List.mem_singleton.mp h] at hk ⊢
        rw [List.mem_singleton.mp hk, ← hp]

theorem groupFold_inv (store : List ExperienceRecord) :
    ∀ (pairs : List (Nat × ExperienceRecord)) (acc : List (List Char × List Nat)),
      (∀ p ∈ pairs, p.2 = getRec store p.1) → GroupInv store acc →
      GroupInv store (pairs.foldl groupStepFn acc) := by
  intro pairs
  induction pairs with
  | nil => intro acc _ h; exact h
  | cons q qs ih =>
    intro acc hps h
    exact ih (groupStepFn acc q)
      (fun p hp => hps p (List.mem_cons_of_mem q hp))
      (groupStepFn_inv store acc q (hps q (List.mem_cons_self q qs)) h)

theorem groupStepFn_mono (acc : List (List Char × List Nat))
    (p : Nat × ExperienceRecord) (k : Nat) (h : ∃ g ∈ acc, k ∈ g.2) :
    ∃ g ∈ groupStepFn acc p, k ∈ g.2 := by
  rcases h with ⟨g, hg, hk⟩
  simp only [groupStepFn]
  split
  · refine ⟨if g.1 = mergeKeyOf p.2 then (g.1, g.2 ++ [p.1]) else g,
      List.mem_map.mpr ⟨g, hg, rfl⟩, ?_⟩
    by_cases hc : g.1 = mergeKeyOf p.2 <;> simp [hc, hk]
  · exact ⟨g, List.mem_append.mpr (Or.inl hg), hk⟩

theorem groupFold_mono :
    ∀ (pairs : List (Nat × ExperienceRecord)) (acc : List (List Char × List Nat))
      (k : Nat), (∃ g ∈ acc, k ∈ g.2) →
      ∃ g ∈ pairs.foldl groupStepFn acc, k ∈ g.2 := by
  intro pairs
  induction pairs with
  | nil => intro acc k h; exact h
  | cons q qs ih => intro acc k h; exact ih (groupStepFn acc q) k (groupStepFn_mono acc q k h)

theorem groupStepFn_self (acc : List (List Char × List Nat))
    (p : Nat × ExperienceRecord) : ∃ g ∈ groupStepFn acc p, p.1 ∈ g.2 := by
  simp only [groupStepFn]
  split
  · next hany =>
    rcases List.any_eq_true.mp hany with ⟨g0, hg0, hp0⟩
    have hk0 : g0.1 = mergeKeyOf p.2 := of_decide_eq_true hp0
    exact ⟨(g0.1, g0.2 ++ [p.1]), List.mem_map.mpr ⟨g0, hg0, by rw [if_pos hk0]⟩, by simp⟩
  · exact ⟨(mergeKeyOf p.2, [p.1]), List.mem_append.mpr (Or.inr (by simp)), by simp⟩

theorem groupFold_cov :
    ∀ (pairs : List (Nat × ExperienceRecord)) (acc : List (List Char × List Nat)),
      ∀ p ∈ pairs, ∃ g ∈ pairs.foldl groupStepFn acc, p.1 ∈ g.2 := by
  intro pairs
  induction pairs with
  | nil => intro acc p hp; exact absurd hp (List.not_mem_nil p)
  | cons q qs ih =>
    intro acc p hp
    rcases List.mem_cons.mp hp with h | h
    · subst h
      exact groupFold_mono qs (groupStepFn acc p) p.1 (groupStepFn_self acc p)
    · exact ih (groupStepFn acc q) p h

theorem enum_wellformed (store : List ExperienceRecord) :
    ∀ p ∈ store.enum, p.2 = getRec store p.1 := by
  intro p hp
  have h := List.mem_enum_iff_getElem?.mp hp
  unfold getRec
  rcases Nat.lt_or_ge p.1 store.length with hlt | hge
  · rw [List.getD_eq_getElem store defaultRecord hlt]
    rw [List.getElem?_eq_getElem hlt] at h
    exact (Option.some_inj.mp h).symm
  · rw [List.getElem?_eq_none hge] at h
    exact absurd h (by simp)

theorem mem_enum_self (store : List ExperienceRecord) (i : Nat)
    (hi : i < store.length) : (i, getRec store i) ∈ store.enum := by
  rw [List.mk_mem_enum_iff_getElem?, List.getElem?_eq_getElem hi]
  rw [getRec, List.getD_eq_getElem store defaultRecord hi]

/-- C5 amended: two records of the input are grouped together by
`merge_overlapping_records` exactly when their trimmed, case-folded
employer names agree (no diacritic stripping, no punctuation removal). -/
theorem c5_amended_grouping_key (store : List ExperienceRecord) (i j : Nat)
    (hi : i < store.length) (hj : j < store.length) :
    (∃ g ∈ groupIndices store, i ∈ g.2 ∧ j ∈ g.2) ↔
      mergeKeyOf (getRec store i) = mergeKeyOf (getRec store j) := by
  have hinv : GroupInv store (groupIndices store) := by
    rw [groupIndices_eq_fold]
    exact groupFold_inv store store.enum [] (enum_wellformed store)
      ⟨List.nodup_nil, fun g hg => absurd hg (List.not_mem_nil g)⟩
  constructor
  · rintro ⟨g, hg, hik, hjk⟩
    rw [hinv.2 g hg i hik, hinv.2 g hg j hjk]
  · intro hkey
    have hcovi : ∃ g ∈ groupIndices store, i ∈ g.2 := by
      rw [groupIndices_eq_fold]
      exact groupFold_cov store.enum [] (i, getRec store i) (mem_enum_self store i hi)
    have hcovj : ∃ g ∈ groupIndices store, j ∈ g.2 := by
      rw [groupIndices_eq_fold]
      exact groupFold_cov store.enum [] (j, getRec store j) (mem_enum_self store j hj)
    rcases hcovi with ⟨gi, hgi, hik⟩
    rcases hcovj with ⟨gj, hgj, hjk⟩
    have hkeq : gi.1 = gj.1 := by
      rw [← hinv.2 gi hgi i hik, ← hinv.2 gj hgj j hjk, hkey]
    have hgeq : gi = gj :=
      List.inj_on_of_nodup_map hinv.1 hgi hgj hkeq
    exact ⟨gi, hgi, hik, hgeq ▸ hjk⟩

theorem compareStep_len (cv_list : List ExperienceRecord)
    (st : List ComparisonResult × List Nat) (c : ExperienceRecord) :
    (compareStep cv_list st c).1.length = st.1.length + 1 := by
  unfold compareStep
  rcases bestCvMatch c cv_list with _ | ⟨best, idx⟩ <;> simp only []
  · simp
  · split <;> simp

theorem compareMain_len (cv_list : List ExperienceRecord) :
    ∀ (certs : List ExperienceRecord) (st : List ComparisonResult × List Nat),
      (certs.foldl (compareStep cv_list) st).1.length = st.1.length + certs.length := by
  intro certs
  induction certs with
  | nil => intro st; simp
  | cons c cs ih =>
    intro st
    rw [List.foldl_cons, ih (compareStep cv_list st c), compareStep_len]
    simp only [List.length_cons]
    omega

theorem bestCvMatch_idx (c : ExperienceRecord) :
    ∀ (ps : List (Nat × ExperienceRecord)) (acc : Option (MatchScore × Nat))
      (Q : Nat → Prop),
      (∀ b i, acc = some (b, i) → Q i) → (∀ p ∈ ps, Q p.1) →
      ∀ b i, (ps.foldl
        (fun best p =>
          let score := scorePair c p.2
          match best with
          | none => some (score, p.1)
          | some b => if score.score > b.1.score then some (score, p.1) else some b)
        acc) = some (b, i) → Q i := by
  intro ps
  induction ps with
  | nil => intro acc Q hacc _ b i h; exact hacc b i h
  | cons q qs ih =>
    intro acc Q hacc hps b i h
    refine ih _ Q ?_ (fun p hp => hps p (List.mem_cons_of_mem q hp)) b i h
    intro b' i' hacc'
    rcases acc with _ | ⟨b0, i0⟩
    · simp only [] at hacc'
      injection hacc' with h1
      injection h1 with _ h2
      rw [← h2]
      exact hps q (List.mem_cons_self q qs)
    · simp only [] at hacc'
      split at hacc'
      · injection hacc' with h1
        injection h1 with _ h2
        rw [← h2]
        exact hps q (List.mem_cons_self q qs)
      · injection hacc' with h1
        cases h1
        exact hacc _ _ rfl

theorem bestCvMatch_lt (c : ExperienceRecord) (cv_list : List ExperienceRecord)
    (b : MatchScore) (i : Nat) (h : bestCvMatch c cv_list = some (b, i)) :
    i < cv_list.length := by
  refine bestCvMatch_idx c cv_list.enum none (fun i => i < cv_list.length)
    (by intro _ _ h'; exact absurd h' (by simp)) ?_ b i h
  intro p hp
  have := List.mem_enum_iff_getElem?.mp hp
  exact (List.getElem?_eq_some.mp this).1

theorem compareStep_used (cv_list : List ExperienceRecord)
    (st : List ComparisonResult × List Nat) (c : ExperienceRecord)
    (h : UsedOk cv_list.length st.2) :
    UsedOk cv_list.length (compareStep cv_list st c).2 := by
  unfold compareStep
  rcases hb : bestCvMatch c cv_list with _ | ⟨best, idx⟩ <;> simp only []
  · exact h
  · split
    · by_cases hin : idx ∈ st.2
      · simpa [hin] using h
      · simp only [if_neg hin]
        refine ⟨?_, ?_⟩
        · rw [List.nodup_append]
          exact ⟨h.1, List.nodup_singleton _, by
            intro a ha hmem
            rw [List.mem_singleton.mp hmem] at ha
            exact hin ha⟩
        · intro u hu
          rcases List.mem_append.mp hu with h' | h'
          · exact h.2 u h'
          · rw [List.mem_singleton.mp h']
            exact bestCvMatch_lt c cv_list best idx hb
    · exact h

theorem compareMain_used (cv_list : List ExperienceRecord) :
    ∀ (certs : List ExperienceRecord) (st : List ComparisonResult × List Nat),
      UsedOk cv_list.length st.2 →
      UsedOk cv_list.length (certs.foldl (compareStep cv_list) st).2 := by
  intro certs
  induction certs with
  | nil => intro st h; exact h
  | cons c cs ih =>
    intro st h
    exact ih (compareStep cv_list st c) (compareStep_used cv_list st c h)

theorem len_filterMap_ite (used : List Nat) :
    ∀ (l : List (Nat × ExperienceRecord)),
      (l.filterMap
        (fun p => if p.1 ∈ used then none else some (syntheticRow p.2))).length =
      (l.filter (fun p => decide (p.1 ∉ used))).length := by
  intro l
  induction l with
  | nil => rfl
  | cons a t ih => by_cases h : a.1 ∈ used <;> simp [h, ih]

theorem len_filter_enumFrom :
    ∀ (l : List ExperienceRecord) (k : Nat) (used : List Nat),
      used.Nodup → (∀ u ∈ used, k ≤ u ∧ u < k + l.length) →
      ((l.enumFrom k).filter (fun p => decide (p.1 ∉ used))).length +
        used.length = l.length := by
  intro l
  induction l with
  | nil =>
    intro k used hnd hb
    rcases used with _ | ⟨u, us⟩
    · simp
    · have h := hb u (List.mem_cons_self u us)
      simp only [List.length_nil] at h
      omega
  | cons a t ih =>
    intro k used hnd hb
    have hcons : List.enumFrom k (a :: t) = (k, a) :: List.enumFrom (k + 1) t := rfl
    rw [hcons]
    by_cases hk : k ∈ used
    · rw [List.filter_cons_of_neg (by simp [hk])]
      have hcong : (List.enumFrom (k + 1) t).filter (fun p => decide (p.1 ∉ used)) =
          (List.enumFrom (k + 1) t).filter (fun p => decide (p.1 ∉ used.erase k)) := by
        refine List.filter_congr ?_
        intro p hp
        have hge : k + 1 ≤ p.1 := by
          obtain ⟨i, x⟩ := p
          exact (List.mk_mem_enumFrom_iff_le_and_getElem?_sub.mp hp).1
        have hiff : p.1 ∈ used ↔ p.1 ∈ used.erase k := by
          rw [hnd.mem_erase_iff]
          constructor
          · intro h; exact ⟨by omega, h⟩
          · intro h; exact h.2
        by_cases hc : p.1 ∈ used
        · simp [hc, hiff.mp hc]
        · have hc2 : p.1 ∉ used.erase k := fun h => hc (hiff.mpr h)
          simp [hc, hc2]
      rw [hcong]
      have hlen : (used.erase k).length + 1 = used.length :=
        List.length_erase_add_one hk
      have hbnd : ∀ u ∈ used.erase k, k + 1 ≤ u ∧ u < (k + 1) + t.length := by
        intro u hu
        have hu2 := hnd.mem_erase_iff.mp hu
        have hb2 := hb u hu2.2
        simp only [List.length_cons] at hb2
        have hne : u ≠ k := hu2.1
        exact ⟨by omega, by omega⟩
      have hrec := ih (k + 1) (used.erase k) (hnd.erase k) hbnd
      simp only [List.length_cons]
      omega
    · rw [List.filter_cons_of_pos (by simp [hk])]
      have hbnd : ∀ u ∈ used, k + 1 ≤ u ∧ u < (k + 1) + t.length := by
        intro u hu
        have hb2 := hb u hu
        simp only [List.length_cons] at hb2
        have hne : u ≠ k := fun he => hk (he ▸ hu)
        exact ⟨by omega, by omega⟩
      have hrec := ih (k + 1) used hnd hbnd
      simp only [List.length_cons, List.length_cons]
      omega

theorem synth_len (l : List ExperienceRecord) (k : Nat) (used : List Nat)
    (hnd : used.Nodup) (hb : ∀ u ∈ used, k ≤ u ∧ u < k + l.length) :
    ((l.enumFrom k).filterMap
      (fun p => if p.1 ∈ used then none else some (syntheticRow p.2))).length +
      used.length = l.length := by
  rw [len_filterMap_ite]
  exact len_filter_enumFrom l k used hnd hb

/-- C1 amended: the output has exactly one result per certificate plus
one synthetic résumé-only result per résumé index never marked used. -/
theorem c1_amended_lifecycle (certs cvs : List ExperienceRecord) :
    (compareMain certs cvs).1.length = certs.length ∧
      (compareCertificatesWithCv certs cvs).length +
        (compareMain certs cvs).2.length = certs.length + cvs.length := by
  have hmain : (compareMain certs cvs).1.length = certs.length := by
    unfold compareMain
    rw [compareMain_len]
    simp
  refine ⟨hmain, ?_⟩
  have hused : UsedOk cvs.length (compareMain certs cvs).2 := by
    unfold compareMain
    exact compareMain_used cvs certs ([], [])
      ⟨List.nodup_nil, fun u hu => absurd hu (List.not_mem_nil u)⟩
  have hsynth := synth_len cvs 0 (compareMain certs cvs).2 hused.1
    (fun u hu => ⟨Nat.zero_le u, by simpa using hused.2 u hu⟩)
  unfold compareCertificatesWithCv
  rw [List.length_append, hmain]
  have henum : cvs.enum = cvs.enumFrom 0 := rfl
  rw [henum]
  omega

theorem getRec_set_ne (store : List ExperienceRecord) (i j : Nat)
    (v : ExperienceRecord) (h : i ≠ j) :
    getRec (store.set i v) j = getRec store j := by
  unfold getRec
  rw [List.getD_eq_getElem?_getD, List.getD_eq_getElem?_getD, List.getElem?_set_ne h]

theorem orderedInsertIdx_perm (key : Nat → Int) (a : Nat) :
    ∀ l : List Nat, (orderedInsertIdx key a l).Perm (a :: l) := by
  intro l
  induction l with
  | nil => exact List.Perm.refl _
  | cons b t ih =>
    unfold orderedInsertIdx
    split
    · exact List.Perm.refl _
    · exact ((ih.cons b).trans (List.Perm.swap a b t))

theorem insertionSortIdx_perm (key : Nat → Int) :
    ∀ l : List Nat, (insertionSortIdx key l).Perm l := by
  intro l
  induction l with
  | nil => exact List.Perm.refl _
  | cons a t ih =>
    unfold insertionSortIdx
    exact (orderedInsertIdx_perm key a (insertionSortIdx key t)).trans (ih.cons a)

theorem sortGroup_perm (store : List ExperienceRecord) (items : List Nat) :
    (sortGroup store items).Perm items :=
  insertionSortIdx_perm _ items

theorem groupStepFn_flat_perm (key : List Char) (n : Nat) :
    ∀ (acc : List (List Char × List Nat)),
      (acc.map (fun g => g.1)).Nodup →
      acc.any (fun g => g.1 = key) = true →
      (groupFlat (acc.map (fun g => if g.1 = key then (g.1, g.2 ++ [n]) else g))).Perm
        (groupFlat acc ++ [n]) := by
  intro acc
  induction acc with
  | nil => intro _ hany; exact absurd hany (by simp)
  | cons g0 rest ih =>
    intro hnd hany
    have hnd0 : g0.1 ∉ rest.map (fun g => g.1) := by
      simp only [List.map_cons, List.nodup_cons] at hnd
      exact hnd.1
    have hndr : (rest.map (fun g => g.1)).Nodup := by
      simp only [List.map_cons, List.nodup_cons] at hnd
      exact hnd.2
    by_cases hk : g0.1 = key
    · have hrest : rest.map (fun g => if g.1 = key then (g.1, g.2 ++ [n]) else g) = rest := by
        have : ∀ g ∈ rest, (if g.1 = key then (g.1, g.2 ++ [n]) else g) = g := by
          intro g hg
          rw [if_neg]
          intro hgk
          exact hnd0 (hk ▸ hgk ▸ List.mem_map_of_mem (fun g => g.1) hg)
        rw [List.map_congr_left this]
        exact List.map_id' rest
      simp only [List.map_cons, if_pos hk, hrest, groupFlat, List.flatMap_cons]
      rw [List.append_assoc, List.append_assoc]
      exact List.Perm.append_left g0.2 (List.perm_append_comm)
    · have hany' : rest.any (fun g => g.1 = key) = true := by
        simp only [List.any_cons] at hany
        rcases Bool.or_eq_true_iff.mp hany with h | h
        · exact absurd (of_decide_eq_true h) hk
        · exact h
      simp only [List.map_cons, if_neg hk, groupFlat, List.flatMap_cons]
      rw [List.append_assoc]
      exact List.Perm.append_left g0.2 (ih hndr hany')

theorem groupStepFn_flat_perm_all (acc : List (List Char × List Nat))
    (p : Nat × ExperienceRecord)
    (hnd : (acc.map (fun g => g.1)).Nodup) :
    (groupFlat (groupStepFn acc p)).Perm (groupFlat acc ++ [p.1]) := by
  simp only [groupStepFn]
  split
  · next hany => exact groupStepFn_flat_perm (mergeKeyOf p.2) p.1 acc hnd hany
  · simp [groupFlat]

/-- Fold invariant giving distinct bucket contents bounded by the next
index to be processed. -/
theorem groupFold_flat (store : List ExperienceRecord) :
    ∀ (pairs : List (Nat × ExperienceRecord)) (acc : List (List Char × List Nat)),
      (∀ p ∈ pairs, p.2 = getRec store p.1) →
      pairs.Pairwise (fun p q => p.1 < q.1) →
      (∀ m ∈ groupFlat acc, ∀ p ∈ pairs, m < p.1) →
      GroupInv store acc → (groupFlat acc).Nodup →
      (groupFlat (pairs.foldl groupStepFn acc)).Nodup := by
  intro pairs
  induction pairs with
  | nil => intro acc _ _ _ _ h; exact h
  | cons q qs ih =>
    intro acc hwf hpw hbnd hinv hflat
    have hinv' : GroupInv store (groupStepFn acc q) :=
      groupStepFn_inv store acc q (hwf q (List.mem_cons_self q qs)) hinv
    have hperm := groupStepFn_flat_perm_all acc q hinv.1
    have hflat' : (groupFlat (groupStepFn acc q)).Nodup := by
      refine hperm.nodup_iff.mpr ?_
      rw [List.nodup_append]
      refine ⟨hflat, List.nodup_singleton _, ?_⟩
      intro m hm hm2
      rw [List.mem_singleton.mp hm2] at hm
      exact absurd (hbnd q.1 hm q (List.mem_cons_self q qs)) (lt_irrefl q.1)
    have hbnd' : ∀ m ∈ groupFlat (groupStepFn acc q), ∀ p ∈ qs, m < p.1 := by
      intro m hm p hp
      rcases List.mem_append.mp (hperm.mem_iff.mp hm) with h | h
      · exact hbnd m h p (List.mem_cons_of_mem q hp)
      · rw [List.mem_singleton.mp h]
        exact (List.pairwise_cons.mp hpw).1 p hp
    exact ih (groupStepFn acc q) (fun p hp => hwf p (List.mem_cons_of_mem q hp))
      (List.pairwise_cons.mp hpw).2 hbnd' hinv' hflat'

theorem groupIndices_flat_nodup (store : List ExperienceRecord) :
    (groupFlat (groupIndices store)).Nodup := by
  rw [groupIndices_eq_fold]
  refine groupFold_flat store store.enum [] (enum_wellformed store) ?_
    (by intro m hm; exact absurd hm (List.not_mem_nil m))
    ⟨List.nodup_nil, fun g hg => absurd hg (List.not_mem_nil g)⟩ List.nodup_nil
  have h1 : store.enum.map Prod.fst = List.range store.length := List.enum_map_fst store
  have h2 : (store.enum.map Prod.fst).Pairwise (· < ·) := by
    rw [h1]; exact List.pairwise_lt_range store.length
  exact (List.pairwise_map).mp h2

theorem groupStep_cases (st : List ExperienceRecord × List (Nat × ExperienceRecord) × Nat)
    (j : Nat) :
    (∃ v, groupStep st j = (st.1.set st.2.2 v, st.2.1, st.2.2)) ∨
      groupStep st j = (st.1, st.2.1, st.2.2) ∨
      groupStep st j = (st.1, st.2.1 ++ [(st.2.2, getRec st.1 st.2.2)], j) := by
  simp only [groupStep]
  by_cases h1 : groupOverlap (getRec st.1 st.2.2) (getRec st.1 j) = true
  · rw [if_pos h1]
    by_cases h2 : groupExtend (getRec st.1 st.2.2) (getRec st.1 j) = true
    · rw [if_pos h2]; left; exact ⟨_, rfl⟩
    · rw [if_neg h2]; right; left; rfl
  · rw [if_neg h1]; right; right; rfl

theorem groupStep_fold_spec (origStore : List ExperienceRecord) (S : List Nat) :
    ∀ (rest : List Nat) (store : List ExperienceRecord)
      (em : List (Nat × ExperienceRecord)) (cur : Nat),
      rest.Nodup → (∀ j ∈ rest, j ∈ S) → cur ∈ S → cur ∉ rest →
      (∀ p ∈ em, getRec store p.1 = p.2 ∧ p.1 ∈ S ∧ p.1 ∉ rest ∧ p.1 ≠ cur) →
      (∀ i, i ∉ S → getRec store i = getRec origStore i) →
      (∀ p ∈ (rest.foldl groupStep (store, em, cur)).2.1,
          getRec (rest.foldl groupStep (store, em, cur)).1 p.1 = p.2 ∧
          p.1 ∈ S ∧ p.1 ≠ (rest.foldl groupStep (store, em, cur)).2.2) ∧
        (rest.foldl groupStep (store, em, cur)).2.2 ∈ S ∧
        (∀ i, i ∉ S →
          getRec (rest.foldl groupStep (store, em, cur)).1 i = getRec origStore i) := by
  intro rest
  induction rest with
  | nil =>
    intro store em cur _ _ hcurS _ hem hout
    refine ⟨?_, hcurS, hout⟩
    intro p hp
    have h := hem p hp
    exact ⟨h.1, h.2.1, h.2.2.2⟩
  | cons j t ih =>
    intro store em cur hnd hsub hcurS hcur hem hout
    have hndt : t.Nodup := (List.nodup_cons.mp hnd).2
    have hjt : j ∉ t := (List.nodup_cons.mp hnd).1
    have hsubt : ∀ i ∈ t, i ∈ S := fun i hi => hsub i (List.mem_cons_of_mem j hi)
    have hjS : j ∈ S := hsub j (List.mem_cons_self j t)
    have hcurt : cur ∉ t := fun h => hcur (List.mem_cons_of_mem j h)
    have hcurj : cur ≠ j := fun h => hcur (h ▸ List.mem_cons_self j t)
    rw [List.foldl_cons]
    rcases groupStep_cases (store, em, cur) j with ⟨v, hv⟩ | hv | hv <;>
      simp only [] at hv <;> rw [hv]
    · refine ih (store.set cur v) em cur hndt hsubt hcurS hcurt ?_ ?_
      · intro p hp
        have h := hem p hp
        exact ⟨(getRec_set_ne store cur p.1 v (fun he => h.2.2.2 he.symm)) ▸ h.1,
          h.2.1, fun hh => h.2.2.1 (List.mem_cons_of_mem j hh), h.2.2.2⟩
      · intro i hi
        have hne : cur ≠ i := fun he => hi (he ▸ hcurS)
        rw [getRec_set_ne store cur i v hne]
        exact hout i hi
    · refine ih store em cur hndt hsubt hcurS hcurt ?_ hout
      intro p hp
      have h := hem p hp
      exact ⟨h.1, h.2.1, fun hh => h.2.2.1 (List.mem_cons_of_mem j hh), h.2.2.2⟩
    · refine ih store (em ++ [(cur, getRec store cur)]) j hndt hsubt hjS hjt ?_ hout
      intro p hp
      rcases List.mem_append.mp hp with h | h
      · have h2 := hem p h
        exact ⟨h2.1, h2.2.1, fun hh => h2.2.2.1 (List.mem_cons_of_mem j hh),
          fun he => h2.2.2.1 (he ▸ List.mem_cons_self j t)⟩
      · rw [List.mem_singleton.mp h]
        exact ⟨rfl, hcurS, hcurt, hcurj⟩

theorem processGroup_spec (store : List ExperienceRecord) (items : List Nat)
    (hnd : items.Nodup) :
    (∀ p ∈ (processGroup store items).2,
        getRec (processGroup store items).1 p.1 = p.2) ∧
      (∀ p ∈ (processGroup store items).2, p.1 ∈ items) ∧
      (∀ i, i ∉ items → getRec (processGroup store items).1 i = getRec store i) := by
  have hperm := sortGroup_perm store items
  unfold processGroup
  rcases hs : sortGroup store items with _ | ⟨first, rest⟩
  · refine ⟨?_, ?_, fun i _ => rfl⟩ <;> intro p hp <;> exact absurd hp (List.not_mem_nil p)
  · rw [hs] at hperm
    have hnds : (first :: rest).Nodup := hperm.nodup_iff.mpr hnd
    have hmem : ∀ j, j ∈ first :: rest ↔ j ∈ items := fun j => hperm.mem_iff
    have hfold := groupStep_fold_spec store items rest store [] first
      (List.nodup_cons.mp hnds).2
      (fun j hj => (hmem j).mp (List.mem_cons_of_mem first hj))
      ((hmem first).mp (List.mem_cons_self first rest))
      (List.nodup_cons.mp hnds).1
      (fun p hp => absurd hp (List.not_mem_nil p))
      (fun i _ => rfl)
    simp only []
    refine ⟨?_, ?_, hfold.2.2⟩
    · intro p hp
      rcases List.mem_append.mp hp with h | h
      · exact ((hfold.1 p h).1)
      · rw [List.mem_singleton.mp h]
    · intro p hp
      rcases List.mem_append.mp hp with h | h
      · exact (hfold.1 p h).2.1
      · rw [List.mem_singleton.mp h]
        exact hfold.2.1

theorem mergeRun_fold_spec :
    ∀ (gs : List (List Char × List Nat)) (store : List ExperienceRecord)
      (em : List (Nat × ExperienceRecord)),
      (groupFlat gs).Nodup →
      (∀ p ∈ em, getRec store p.1 = p.2) →
      (∀ p ∈ em, ∀ g ∈ gs, p.1 ∉ g.2) →
      ∀ p ∈ (gs.foldl
          (fun acc g =>
            let r := processGroup acc.1 g.2
            (r.1, acc.2 ++ r.2)) (store, em)).2,
        getRec (gs.foldl
          (fun acc g =>
            let r := processGroup acc.1 g.2
            (r.1, acc.2 ++ r.2)) (store, em)).1 p.1 = p.2 := by
  intro gs
  induction gs with
  | nil => intro store em _ hem _ p hp; exact hem p hp
  | cons g gs' ih =>
    intro store em hflat hem hdisj
    have hsplit : (g.2 ++ groupFlat gs').Nodup := by
      simpa [groupFlat, List.flatMap_cons] using hflat
    rw [List.nodup_append] at hsplit
    obtain ⟨hg2, hrest, hdisj2⟩ := hsplit
    have hspec := processGroup_spec store g.2 hg2
    rw [List.foldl_cons]
    simp only []
    refine ih (processGroup store g.2).1 (em ++ (processGroup store g.2).2) hrest ?_ ?_
    · intro p hp
      rcases List.mem_append.mp hp with h | h
      · rw [hspec.2.2 p.1 (hdisj p h g (List.mem_cons_self g gs'))]
        exact hem p h
      · exact hspec.1 p h
    · intro p hp g' hg'
      rcases List.mem_append.mp hp with h | h
      · exact hdisj p h g' (List.mem_cons_of_mem g hg')
      · intro hmem
        exact hdisj2 (hspec.2.1 p h)
          (List.mem_flatMap.mpr ⟨g', hg', hmem⟩)

/-- C6 amended: no record is mutated after being emitted — every
`(index, value-at-emission)` pair of the merge run still has that value
in the final store. -/
theorem c6_amended_no_mutation_after_emission (store : List ExperienceRecord)
    (p : Nat × ExperienceRecord) (hp : p ∈ (mergeRun store).2) :
    getRec (mergeRun store).1 p.1 = p.2 := by
  exact mergeRun_fold_spec (groupIndices store) store []
    (groupIndices_flat_nodup store)
    (fun q hq => absurd hq (List.not_mem_nil q))
    (fun q hq => absurd hq (List.not_mem_nil q)) p hp

/-- Witness for C5 amended at a concrete store. -/
theorem c5_amended_grouping_key_witness :
    (∃ g ∈ groupIndices [cexAccA, cexAccB], 0 ∈ g.2 ∧ 1 ∈ g.2) ↔
      mergeKeyOf (getRec [cexAccA, cexAccB] 0) =
        mergeKeyOf (getRec [cexAccA, cexAccB] 1) :=
  c5_amended_grouping_key [cexAccA, cexAccB] 0 1 (by decide) (by decide)

/-- Witness for C6 amended at a concrete store. -/
theorem c6_amended_no_mutation_after_emission_witness :
    getRec (mergeRun [cexMergeA, cexMergeB]).1
        ((0 : Nat), groupUpdated cexMergeA cexMergeB).1 =
      ((0 : Nat), groupUpdated cexMergeA cexMergeB).2 :=
  c6_amended_no_mutation_after_emission [cexMergeA, cexMergeB]
    (0, groupUpdated cexMergeA cexMergeB) (by decide)

/-- Witness for C8 amended at a concrete pair of records. -/
theorem c8_amended_merge_days_ge_earlier_witness :
    ∃ m d1 dm,
      mergeOverlappingRecords [mkExperienceRecord "c" (some "e") (some 1) (some 10) none,
        mkExperienceRecord "c" (some "e") (some 5) (some 20) none] = [m] ∧
      (mkExperienceRecord "c" (some "e") (some 1) (some 10) none).experience_days =
        some d1 ∧
      m.experience_days = some dm ∧ d1 ≤ dm :=
  c8_amended_merge_days_ge_earlier "c" "c" (some "e") 1 5 10 (some 10) none
    (some 20) none (by decide) (by decide) (by decide)

end ExperienceAnalyzer
